import Mathlib

/-!
Verification of the candidate-job matching and ranking core of the
AIResumeScanner repository, as a shallow embedding in Lean 4.

Embedding conventions:
* Python strings are Lean `String` / `List Char`; character-class tests
  (`\w`, `\s`, `isdigit`, `lower`) follow the ASCII semantics of the
  corresponding Lean `Char` operations.
* Machine floats are embedded as exact rationals `ℚ`; the score formula of
  `ranking_system.calculate_similarity` uses only the constants 0.6 and 0.4
  and values produced by external libraries.
* Calls into external libraries (scikit-learn TF-IDF vectorization /
  cosine similarity, the Python `re` engine) are oracle parameters: a
  `tfidf_cosine` function returning `Option ℚ` (`none` models the raised
  exception caught by the `try/except`), and a `regexFind` function
  returning `Option (List String)` (`none` models `re.error`).
* Fallible Python code paths are total Lean functions returning the value
  the `except` branch substitutes, mirroring the source's handlers.
-/

/-! ## SimilarityScorer (`ranking_system.py`, `calculate_similarity`) -/

/-- Embedding of `ranking_system.calculate_similarity`.  The TF-IDF +
cosine-similarity computation over the two-document corpus is an external
scikit-learn call wrapped in `try/except`; it is abstracted as the oracle
`tfidf_cosine`, with `none` standing for the caught exception, in which
case the source sets `cosine_sim = 0.0` (lines 25–37).  The skill-match
ratio is `len(set(job_skills) & set(resume_skills)) / len(job_skills)`
when `job_skills` is non-empty, else `0` (lines 39–44); the combined score
is `0.6 * skill_match_ratio + 0.4 * cosine_sim` (line 47). -/
def calculate_similarity (tfidf_cosine : String → String → Option ℚ)
    (job_description resume_text : String)
    (job_skills resume_skills : List String) : ℚ :=
  let cosine_sim : ℚ :=
    match tfidf_cosine job_description resume_text with
    | some c => c
    | none => 0
  let skill_match_ratio : ℚ :=
    if job_skills ≠ [] then
      ((job_skills.toFinset ∩ resume_skills.toFinset).card : ℚ) /
        (job_skills.length : ℚ)
    else 0
  (0.6 : ℚ) * skill_match_ratio + (0.4 : ℚ) * cosine_sim

/-- The skill-overlap ratio as the specification states it:
`|job_skills ∩ resume_skills| / |job_skills|` for non-empty `job_skills`,
else `0.0`; the intersection is of the de-duplicated skill sets and the
denominator is the number of entries of the `job_skills` list, exactly as
the source computes it. -/
def skill_overlap_ratio_spec (job_skills resume_skills : List String) : ℚ :=
  if job_skills = [] then 0
  else ((job_skills.toFinset ∩ resume_skills.toFinset).card : ℚ) /
    (job_skills.length : ℚ)

theorem calculate_similarity_eq_formula
    (tfidf_cosine : String → String → Option ℚ)
    (jd rt : String) (js rs : List String) (c : ℚ)
    (h : tfidf_cosine jd rt = some c) :
    calculate_similarity tfidf_cosine jd rt js rs =
      (0.6 : ℚ) * skill_overlap_ratio_spec js rs + (0.4 : ℚ) * c := by
  unfold calculate_similarity skill_overlap_ratio_spec
  rw [h]
  by_cases hjs : js = []
  · simp [hjs]
  · simp [hjs]

/-- **C1.** For every pair of texts and every pair of skill lists (and
every value returned by the TF-IDF oracle), `calculate_similarity` returns
`0.6 × skill_overlap_ratio + 0.4 × lexical_similarity`, where the
skill-overlap ratio is `|job_skills ∩ resume_skills| / |job_skills|` for
non-empty `job_skills` and `0.0` otherwise; and at the concrete input
`job_skills = ["python","sql"]`, `resume_skills = ["python","sql","java"]`
with lexical similarity `0.5`, the score equals `0.8`. -/
theorem C1_calculate_similarity_formula
    (tfidf_cosine : String → String → Option ℚ)
    (jd rt : String) (js rs : List String) (c : ℚ)
    (h : tfidf_cosine jd rt = some c) :
    calculate_similarity tfidf_cosine jd rt js rs =
      (0.6 : ℚ) * skill_overlap_ratio_spec js rs + (0.4 : ℚ) * c ∧
    calculate_similarity (fun _ _ => some (0.5 : ℚ)) "job" "resume"
      ["python", "sql"] ["python", "sql", "java"] = (0.8 : ℚ) := by
  constructor
  · exact calculate_similarity_eq_formula tfidf_cosine jd rt js rs c h
  · rw [calculate_similarity_eq_formula (fun _ _ => some (0.5 : ℚ))
      "job" "resume" ["python", "sql"] ["python", "sql", "java"]
      (0.5 : ℚ) rfl]
    have hcard : ((["python", "sql"] : List String).toFinset ∩
        (["python", "sql", "java"] : List String).toFinset).card = 2 := by
      decide
    unfold skill_overlap_ratio_spec
    rw [if_neg (by simp)]
    rw [hcard]
    norm_num

/-- Witness for C1 at a fully concrete input. -/
theorem C1_calculate_similarity_formula_witness :
    calculate_similarity (fun _ _ => some (0.5 : ℚ)) "job" "resume"
      ["python", "sql"] ["python", "sql", "java"] =
      (0.6 : ℚ) * skill_overlap_ratio_spec ["python", "sql"]
        ["python", "sql", "java"] + (0.4 : ℚ) * (0.5 : ℚ) :=
  (C1_calculate_similarity_formula (fun _ _ => some (0.5 : ℚ)) "job"
    "resume" ["python", "sql"] ["python", "sql", "java"] (0.5 : ℚ) rfl).1

/-- The skill-match ratio computed by the source is always in `[0, 1]`:
the intersection of the de-duplicated sets has at most as many elements as
the `job_skills` list. -/
theorem skill_overlap_ratio_spec_bounds (js rs : List String) :
    0 ≤ skill_overlap_ratio_spec js rs ∧ skill_overlap_ratio_spec js rs ≤ 1 := by
  unfold skill_overlap_ratio_spec
  by_cases hjs : js = []
  · simp [hjs]
  · rw [if_neg hjs]
    have hlen : 0 < js.length := List.length_pos.mpr hjs
    have hcard : (js.toFinset ∩ rs.toFinset).card ≤ js.length :=
      le_trans (Finset.card_le_card Finset.inter_subset_left)
        (List.toFinset_card_le js)
    constructor
    · positivity
    · rw [div_le_one (by exact_mod_cast hlen)]
      exact_mod_cast hcard

/-- **C4.** Whenever the lexical-similarity term produced by the TF-IDF
oracle lies in `[0, 1]` (as a cosine similarity of nonnegative TF-IDF
vectors does), the score returned by `calculate_similarity` satisfies
`0.0 ≤ score ≤ 1.0`; the definition applies no clamping, the bound holds
by construction of `0.6 · ratio + 0.4 · cosine`. -/
theorem C4_calculate_similarity_bounds
    (tfidf_cosine : String → String → Option ℚ)
    (jd rt : String) (js rs : List String)
    (h : ∀ c : ℚ, tfidf_cosine jd rt = some c → 0 ≤ c ∧ c ≤ 1) :
    0 ≤ calculate_similarity tfidf_cosine jd rt js rs ∧
      calculate_similarity tfidf_cosine jd rt js rs ≤ 1 := by
  obtain ⟨hr0, hr1⟩ := skill_overlap_ratio_spec_bounds js rs
  unfold calculate_similarity
  unfold skill_overlap_ratio_spec at hr0 hr1
  cases hc : tfidf_cosine jd rt with
  | none =>
      simp only [hc]
      by_cases hjs : js = []
      · simp [hjs]
      · rw [if_neg hjs] at hr0 hr1
        simp only [ne_eq, hjs, not_false_iff, if_true]
        constructor
        · nlinarith
        · nlinarith
  | some c =>
      obtain ⟨hc0, hc1⟩ := h c hc
      simp only [hc]
      by_cases hjs : js = []
      · simp only [hjs, ne_eq, not_true_eq_false, if_false]
        constructor
        · nlinarith
        · nlinarith
      · rw [if_neg hjs] at hr0 hr1
        simp only [ne_eq, hjs, not_false_iff, if_true]
        constructor
        · nlinarith
        · nlinarith

/-- Witness for C4 at a concrete input with a concrete in-range cosine. -/
theorem C4_calculate_similarity_bounds_witness :
    0 ≤ calculate_similarity (fun _ _ => some (1 : ℚ)) "j" "r"
      ["python"] ["sql"] ∧
    calculate_similarity (fun _ _ => some (1 : ℚ)) "j" "r"
      ["python"] ["sql"] ≤ 1 :=
  C4_calculate_similarity_bounds (fun _ _ => some (1 : ℚ)) "j" "r"
    ["python"] ["sql"]
    (by intro c hc; injection hc with hc; subst hc; norm_num)

/-- **C7.** If TF-IDF vectorization of the two-document corpus fails (the
oracle returns `none`, modelling the exception caught at lines 25–37 of
`ranking_system.py`), `calculate_similarity` substitutes `0.0` for the
lexical-similarity term: the result is exactly the score formula with a
zero lexical term, equal to the score computed with a successful
vectorization returning `0.0`.  The function is total, so the failure is
never propagated to the caller. -/
theorem C7_calculate_similarity_vectorization_failure
    (tfidf_cosine : String → String → Option ℚ)
    (jd rt : String) (js rs : List String)
    (h : tfidf_cosine jd rt = none) :
    calculate_similarity tfidf_cosine jd rt js rs =
      (0.6 : ℚ) * skill_overlap_ratio_spec js rs + (0.4 : ℚ) * 0 ∧
    calculate_similarity tfidf_cosine jd rt js rs =
      calculate_similarity (fun _ _ => some 0) jd rt js rs := by
  have h1 : calculate_similarity tfidf_cosine jd rt js rs =
      (0.6 : ℚ) * skill_overlap_ratio_spec js rs + (0.4 : ℚ) * 0 := by
    unfold calculate_similarity skill_overlap_ratio_spec
    rw [h]
    by_cases hjs : js = [] <;> simp [hjs]
  have h2 : calculate_similarity (fun _ _ => some (0 : ℚ)) jd rt js rs =
      (0.6 : ℚ) * skill_overlap_ratio_spec js rs + (0.4 : ℚ) * 0 :=
    calculate_similarity_eq_formula (fun _ _ => some 0) jd rt js rs 0 rfl
  exact ⟨h1, h1.trans h2.symm⟩

/-- Witness for C7 at a concrete failing oracle. -/
theorem C7_calculate_similarity_vectorization_failure_witness :
    calculate_similarity (fun _ _ => none) "j" "r" ["python"] ["python"] =
      (0.6 : ℚ) * skill_overlap_ratio_spec ["python"] ["python"] +
        (0.4 : ℚ) * 0 ∧
    calculate_similarity (fun _ _ => none) "j" "r" ["python"] ["python"] =
      calculate_similarity (fun _ _ => some 0) "j" "r" ["python"] ["python"] :=
  C7_calculate_similarity_vectorization_failure (fun _ _ => none) "j" "r"
    ["python"] ["python"] rfl

/-! ## Ranker (`ranking_system.py`, `rank_resumes`)

Python's built-in `sorted` is a stable sort; `rank_resumes` calls it with
`key=lambda x: x['similarity_score']` and `reverse=True`, which keeps
candidates with equal scores in their original relative order.  The
embedding realizes that exact input/output relation as a stable descending
insertion sort parameterized by the sort key. -/

/-- One stable descending insertion step: `x` is placed after every
already-placed element with a strictly greater key and before every
element with a key `≤ key x`; since `sortDescBy` inserts earlier input
elements into the sorted tail, equal-key elements keep input order. -/
def insertDescBy {α β : Type} [LinearOrder β] (key : α → β) (x : α) :
    List α → List α
  | [] => [x]
  | y :: ys =>
    if key x < key y then y :: insertDescBy key x ys else x :: y :: ys

/-- Stable sort by descending key: the embedding of Python's stable
`sorted(…, key=…, reverse=True)`. -/
def sortDescBy {α β : Type} [LinearOrder β] (key : α → β) :
    List α → List α
  | [] => []
  | x :: xs => insertDescBy key x (sortDescBy key xs)

/-- The fields of the per-resume dictionaries that `rank_resumes` reads. -/
structure ResumeData where
  filename : String
  similarity_score : ℚ
deriving DecidableEq

/-- Embedding of `ranking_system.rank_resumes`: sort the batch by
`similarity_score` descending with a stable sort. -/
def rank_resumes (resumes_data : List ResumeData) : List ResumeData :=
  sortDescBy (fun x => x.similarity_score) resumes_data

theorem insertDescBy_perm {α β : Type} [LinearOrder β] (key : α → β)
    (x : α) (l : List α) : (insertDescBy key x l).Perm (x :: l) := by
  induction l with
  | nil => exact List.Perm.refl _
  | cons y ys ih =>
      unfold insertDescBy
      by_cases hxy : key x < key y
      · rw [if_pos hxy]
        exact ((ih.cons y).trans (List.Perm.swap x y ys))
      · rw [if_neg hxy]

theorem insertDescBy_mem {α β : Type} [LinearOrder β] (key : α → β)
    (x z : α) (l : List α) (hz : z ∈ insertDescBy key x l) :
    z = x ∨ z ∈ l := by
  have := (insertDescBy_perm key x l).mem_iff.mp hz
  simpa using this

theorem insertDescBy_sorted {α β : Type} [LinearOrder β] (key : α → β)
    (x : α) (l : List α)
    (hl : l.Pairwise (fun a b => key b ≤ key a)) :
    (insertDescBy key x l).Pairwise (fun a b => key b ≤ key a) := by
  induction l with
  | nil => simp [insertDescBy]
  | cons y ys ih =>
      rw [List.pairwise_cons] at hl
      obtain ⟨hy, hys⟩ := hl
      unfold insertDescBy
      by_cases hxy : key x < key y
      · rw [if_pos hxy]
        rw [List.pairwise_cons]
        refine ⟨?_, ih hys⟩
        intro z hz
        rcases insertDescBy_mem key x z ys hz with h | h
        · exact h ▸ le_of_lt hxy
        · exact hy z h
      · rw [if_neg hxy]
        rw [List.pairwise_cons]
        refine ⟨?_, List.pairwise_cons.mpr ⟨hy, hys⟩⟩
        intro z hz
        rcases List.mem_cons.mp hz with h | h
        · exact h ▸ not_lt.mp hxy
        · exact le_trans (hy z h) (not_lt.mp hxy)

theorem insertDescBy_filter_key {α β : Type} [LinearOrder β]
    [DecidableEq β] (key : α → β) (x : α) (l : List α) (v : β) :
    (insertDescBy key x l).filter (fun a => decide (key a = v)) =
      if key x = v then x :: l.filter (fun a => decide (key a = v))
      else l.filter (fun a => decide (key a = v)) := by
  induction l with
  | nil =>
      by_cases hxv : key x = v <;> simp [insertDescBy, hxv]
  | cons y ys ih =>
      unfold insertDescBy
      by_cases hxy : key x < key y
      · rw [if_pos hxy]
        by_cases hyv : key y = v
        · have hxv : key x ≠ v := by
            intro hxv
            rw [hxv, ← hyv] at hxy
            exact lt_irrefl _ hxy
          simp [List.filter_cons, hyv, hxv, ih]
        · by_cases hxv : key x = v <;>
            simp [List.filter_cons, hyv, hxv, ih]
      · rw [if_neg hxy]
        by_cases hxv : key x = v <;> simp [List.filter_cons, hxv]

theorem sortDescBy_perm {α β : Type} [LinearOrder β] (key : α → β)
    (l : List α) : (sortDescBy key l).Perm l := by
  induction l with
  | nil => exact List.Perm.refl _
  | cons x xs ih =>
      exact (insertDescBy_perm key x (sortDescBy key xs)).trans (ih.cons x)

theorem sortDescBy_sorted {α β : Type} [LinearOrder β] (key : α → β)
    (l : List α) :
    (sortDescBy key l).Pairwise (fun a b => key b ≤ key a) := by
  induction l with
  | nil => simp [sortDescBy]
  | cons x xs ih => exact insertDescBy_sorted key x _ ih

theorem sortDescBy_filter_key {α β : Type} [LinearOrder β]
    [DecidableEq β] (key : α → β) (l : List α) (v : β) :
    (sortDescBy key l).filter (fun a => decide (key a = v)) =
      l.filter (fun a => decide (key a = v)) := by
  induction l with
  | nil => rfl
  | cons x xs ih =>
      show (insertDescBy key x (sortDescBy key xs)).filter _ = _
      rw [insertDescBy_filter_key]
      by_cases hxv : key x = v
      · rw [if_pos hxv, ih, List.filter_cons, if_pos (by simpa using hxv)]
      · rw [if_neg hxv, ih, List.filter_cons, if_neg (by simpa using hxv)]

/-- **C3.** `rank_resumes` returns the input batch sorted by similarity
score in descending order using a stable sort: the output is a
permutation of the input, pairwise sorted by descending score, and for
every score value the subsequence of candidates carrying exactly that
score is preserved verbatim from the input (so two equal-score candidates
input in order `[A, B]` stay in order `[A, B]`); an empty batch yields the
empty list, not an error. -/
theorem C3_rank_resumes_stable_descending (l : List ResumeData) :
    (rank_resumes l).Perm l ∧
    (rank_resumes l).Pairwise
      (fun a b => b.similarity_score ≤ a.similarity_score) ∧
    (∀ s : ℚ,
      (rank_resumes l).filter (fun c => decide (c.similarity_score = s)) =
        l.filter (fun c => decide (c.similarity_score = s))) ∧
    rank_resumes [] = ([] : List ResumeData) := by
  refine ⟨sortDescBy_perm _ l, sortDescBy_sorted _ l, ?_, rfl⟩
  intro s
  exact sortDescBy_filter_key (fun x => x.similarity_score) l s

/-! ## TextNormalizer (`nlp_processor.py`, `preprocess_text`)

`preprocess_text` lowercases, replaces runs of newlines by a single space
(`re.sub(r'\n+', ' ', text)`), replaces every character that is neither a
word character nor whitespace by a space (`re.sub(r'[^\w\s]', ' ', text)`),
collapses whitespace runs to a single space and strips the ends
(`re.sub(r'\s+', ' ', text).strip()`); `None` and `""` short-circuit to
`""`.  The regex character classes are embedded with their ASCII
semantics. -/

/-- Python `\w` (ASCII): letters, digits, or underscore. -/
def isWordChar (c : Char) : Bool := c.isAlphanum || c = '_'

/-- Python `\s` (ASCII): space, tab, newline, carriage return, vertical
tab, form feed. -/
def isSpaceChar (c : Char) : Bool :=
  c = ' ' || c = '\t' || c = '\n' || c = '\r' || c = '\x0b' || c = '\x0c'

/-- `collapseAux p r inRun l` replaces every maximal run of characters
satisfying `p` by the single character `r`; `inRun` records whether the
previous character belonged to such a run.  `collapseAux p r false`
embeds `re.sub(p+, r, ·)`. -/
def collapseAux (p : Char → Bool) (r : Char) : Bool → List Char → List Char
  | _, [] => []
  | inRun, c :: cs =>
    if p c then
      if inRun then collapseAux p r true cs
      else r :: collapseAux p r true cs
    else c :: collapseAux p r false cs

/-- `re.sub(p+, r, l)` for a single-character class `p`. -/
def collapseRuns (p : Char → Bool) (r : Char) (l : List Char) : List Char :=
  collapseAux p r false l

/-- Drop the longest leading block of characters satisfying `p`. -/
def dropLeading (p : Char → Bool) : List Char → List Char
  | [] => []
  | c :: cs => if p c then dropLeading p cs else c :: cs

/-- Python `str.strip()`: drop leading and trailing whitespace. -/
def stripChars (l : List Char) : List Char :=
  (dropLeading isSpaceChar ((dropLeading isSpaceChar l).reverse)).reverse

/-- `re.sub(r'[^\w\s]', ' ', ·)` acts character by character. -/
def scrubChar (c : Char) : Char :=
  if isWordChar c || isSpaceChar c then c else ' '

/-- The four in-order transformation steps of `preprocess_text` on the
character list of a non-empty input. -/
def normalizeChars (l : List Char) : List Char :=
  stripChars (collapseRuns isSpaceChar ' '
    ((collapseRuns (fun c => decide (c = '\n')) ' '
      (l.map Char.toLower)).map scrubChar))

/-- Embedding of `nlp_processor.preprocess_text`; `none` models the
absent (`None`) input, and `if not text` sends both `None` and `""` to
`""`. -/
def preprocess_text : Option String → String
  | none => ""
  | some t => if t = "" then "" else String.mk (normalizeChars t.data)

/-- Characters of a normalized text: lowercase-stable word characters or
the single space. -/
def normalChar (c : Char) : Prop :=
  (isWordChar c = true ∧ Char.toLower c = c) ∨ c = ' '

/-- Normal form preserved and produced by `normalizeChars`: every
character is a lowercase-stable word character or `' '`, no two adjacent
whitespace characters, and no whitespace at either end. -/
def NormalForm (l : List Char) : Prop :=
  (∀ c ∈ l, normalChar c) ∧
  List.Chain' (fun a b => ¬(isSpaceChar a = true ∧ isSpaceChar b = true)) l ∧
  (∀ c ∈ l.head?, isSpaceChar c = false) ∧
  (∀ c ∈ l.getLast?, isSpaceChar c = false)

theorem map_id_of {α : Type} (f : α → α) (l : List α)
    (h : ∀ c ∈ l, f c = c) : l.map f = l := by
  induction l with
  | nil => rfl
  | cons c cs ih =>
      simp only [List.map_cons]
      rw [h c (List.mem_cons_self c cs), ih (fun d hd => h d (List.mem_cons_of_mem c hd))]

theorem Char_toLower_idem (c : Char) :
    (Char.toLower c).toLower = Char.toLower c := by
  unfold Char.toLower
  simp only
  split
  · next h =>
    have hv : (Char.ofNat (c.toNat + 32)).toNat = c.toNat + 32 := by
      unfold Char.ofNat
      rw [dif_pos (Or.inl (by omega))]
      rfl
    rw [if_neg]
    rw [hv]
    omega
  · rfl

theorem word_not_space (c : Char) (hw : isWordChar c = true) :
    isSpaceChar c = false := by
  by_contra hs
  have hs2 : isSpaceChar c = true := by
    cases h : isSpaceChar c
    · exact absurd h hs
    · rfl
  unfold isSpaceChar at hs2
  simp only [Bool.or_eq_true, decide_eq_true_eq] at hs2
  rcases hs2 with ((((h | h) | h) | h) | h) | h <;> subst h <;>
    exact absurd hw (by decide)

theorem collapseAux_id_of_none (p : Char → Bool) (r : Char)
    (l : List Char) (h : ∀ c ∈ l, p c = false) (b : Bool) :
    collapseAux p r b l = l := by
  induction l generalizing b with
  | nil => rfl
  | cons c cs ih =>
      unfold collapseAux
      rw [h c (List.mem_cons_self c cs)]
      simp only [Bool.false_eq_true, if_false]
      rw [ih (fun d hd => h d (List.mem_cons_of_mem c hd)) false]

theorem collapseAux_self (p : Char → Bool) (r : Char) (l : List Char)
    (hchars : ∀ c ∈ l, p c = true → c = r)
    (hchain : List.Chain' (fun a b => ¬(p a = true ∧ p b = true)) l) :
    collapseAux p r false l = l ∧
    ((∀ c ∈ l.head?, p c = false) → collapseAux p r true l = l) := by
  induction l with
  | nil => exact ⟨rfl, fun _ => rfl⟩
  | cons c cs ih =>
      have hchars2 : ∀ d ∈ cs, p d = true → d = r :=
        fun d hd => hchars d (List.mem_cons_of_mem c hd)
      have hchain2 : List.Chain' (fun a b => ¬(p a = true ∧ p b = true)) cs :=
        hchain.tail
      obtain ⟨ihF, ihT⟩ := ih hchars2 hchain2
      constructor
      · unfold collapseAux
        cases hpc : p c with
        | false =>
            simp only [Bool.false_eq_true, if_false]
            rw [ihF]
        | true =>
            simp only [if_true, if_neg (by simp : ¬(false = true))]
            have hcr : c = r := hchars c (List.mem_cons_self c cs) hpc
            rw [ihT ?_, hcr]
            intro d hd
            cases cs with
            | nil => simp at hd
            | cons e es =>
                simp only [List.head?_cons, Option.mem_def,
                  Option.some.injEq] at hd
                rw [List.chain'_cons] at hchain
                have hpe : p e = false := by
                  cases h : p e
                  · rfl
                  · exact absurd ⟨hpc, h⟩ hchain.1
                rw [← hd]
                exact hpe
      · intro hhead
        have hpc : p c = false := hhead c rfl
        unfold collapseAux
        rw [hpc]
        simp only [Bool.false_eq_true, if_false]
        rw [ihF]

theorem collapseAux_mem (p : Char → Bool) (r : Char) (b : Bool)
    (l : List Char) (c : Char) (hc : c ∈ collapseAux p r b l) :
    c = r ∨ (c ∈ l ∧ p c = false) := by
  induction l generalizing b with
  | nil => simp [collapseAux] at hc
  | cons d ds ih =>
      unfold collapseAux at hc
      by_cases hpd : p d = true
      · rw [if_pos hpd] at hc
        cases b with
        | true =>
            rcases ih true hc with h | ⟨h1, h2⟩
            · exact Or.inl h
            · exact Or.inr ⟨List.mem_cons_of_mem d h1, h2⟩
        | false =>
            simp only [if_neg (by simp : ¬(false = true))] at hc
            rcases List.mem_cons.mp hc with h | h
            · exact Or.inl h
            · rcases ih true h with h2 | ⟨h3, h4⟩
              · exact Or.inl h2
              · exact Or.inr ⟨List.mem_cons_of_mem d h3, h4⟩
      · rw [if_neg hpd] at hc
        rcases List.mem_cons.mp hc with h | h
        · subst h
          exact Or.inr ⟨List.mem_cons_self c ds,
            Bool.not_eq_true _ ▸ hpd⟩
        · rcases ih false h with h2 | ⟨h3, h4⟩
          · exact Or.inl h2
          · exact Or.inr ⟨List.mem_cons_of_mem d h3, h4⟩

theorem collapseAux_head_true (p : Char → Bool) (r : Char)
    (l : List Char) :
    ∀ c ∈ (collapseAux p r true l).head?, p c = false := by
  induction l with
  | nil => intro c hc; simp [collapseAux] at hc
  | cons d ds ih =>
      intro c hc
      unfold collapseAux at hc
      by_cases hpd : p d = true
      · rw [if_pos hpd, if_pos rfl] at hc
        exact ih c hc
      · rw [if_neg hpd] at hc
        simp only [List.head?_cons, Option.mem_def, Option.some.injEq] at hc
        subst hc
        exact Bool.not_eq_true _ ▸ hpd

theorem collapseAux_chain (p : Char → Bool) (r : Char)
    (l : List Char) (b : Bool) :
    List.Chain' (fun a c => ¬(p a = true ∧ p c = true))
      (collapseAux p r b l) := by
  induction l generalizing b with
  | nil => simp [collapseAux]
  | cons d ds ih =>
      unfold collapseAux
      by_cases hpd : p d = true
      · rw [if_pos hpd]
        cases b with
        | true => exact ih true
        | false =>
            simp only [if_neg (by simp : ¬(false = true))]
            rw [List.chain'_cons']
            refine ⟨?_, ih true⟩
            intro y hy
            intro hcon
            have := collapseAux_head_true p r ds y hy
            rw [this] at hcon
            exact absurd hcon.2 (by simp)
      · rw [if_neg hpd]
        rw [List.chain'_cons']
        refine ⟨?_, ih false⟩
        intro y hy hcon
        have hpd2 : p d = false := by
          cases h : p d
          · rfl
          · exact absurd h hpd
        rw [hpd2] at hcon
        exact absurd hcon.1 (by simp)

theorem dropLeading_id (p : Char → Bool) (l : List Char)
    (h : ∀ c ∈ l.head?, p c = false) : dropLeading p l = l := by
  cases l with
  | nil => rfl
  | cons c cs =>
      unfold dropLeading
      rw [h c rfl]
      simp

theorem dropLeading_head (p : Char → Bool) (l : List Char) :
    ∀ c ∈ (dropLeading p l).head?, p c = false := by
  induction l with
  | nil => intro c hc; simp [dropLeading] at hc
  | cons d ds ih =>
      intro c hc
      unfold dropLeading at hc
      by_cases hpd : p d = true
      · rw [if_pos hpd] at hc
        exact ih c hc
      · rw [if_neg hpd] at hc
        simp only [List.head?_cons, Option.mem_def, Option.some.injEq] at hc
        rw [← hc]
        cases h2 : p d
        · rfl
        · exact absurd h2 hpd

theorem mem_dropLeading (p : Char → Bool) (l : List Char) (c : Char)
    (hc : c ∈ dropLeading p l) : c ∈ l := by
  induction l with
  | nil => simp [dropLeading] at hc
  | cons d ds ih =>
      unfold dropLeading at hc
      by_cases hpd : p d = true
      · rw [if_pos hpd] at hc
        exact List.mem_cons_of_mem d (ih hc)
      · rw [if_neg hpd] at hc
        exact hc

theorem dropLeading_chain {R : Char → Char → Prop} (p : Char → Bool)
    (l : List Char) (h : List.Chain' R l) :
    List.Chain' R (dropLeading p l) := by
  induction l with
  | nil => simp [dropLeading]
  | cons d ds ih =>
      unfold dropLeading
      by_cases hpd : p d = true
      · rw [if_pos hpd]
        exact ih h.tail
      · rw [if_neg hpd]
        exact h

theorem dropLeading_getLast (p : Char → Bool) (l : List Char) :
    dropLeading p l = [] ∨ (dropLeading p l).getLast? = l.getLast? := by
  induction l with
  | nil => exact Or.inl rfl
  | cons d ds ih =>
      unfold dropLeading
      by_cases hpd : p d = true
      · rw [if_pos hpd]
        rcases ih with h | h
        · exact Or.inl h
        · cases ds with
          | nil => exact Or.inl rfl
          | cons e es =>
              right
              rw [h]
              rfl
      · rw [if_neg hpd]
        exact Or.inr rfl

theorem chain_reverse_of {R : Char → Char → Prop}
    (hsym : ∀ a b, R a b → R b a) (l : List Char)
    (h : List.Chain' R l) : List.Chain' R l.reverse := by
  rw [List.chain'_reverse]
  exact List.Chain'.imp (fun a b hab => hsym a b hab) h

theorem mem_stripChars (l : List Char) (c : Char)
    (hc : c ∈ stripChars l) : c ∈ l := by
  unfold stripChars at hc
  rw [List.mem_reverse] at hc
  have h2 := mem_dropLeading _ _ _ hc
  rw [List.mem_reverse] at h2
  exact mem_dropLeading _ _ _ h2

theorem stripChars_head (l : List Char) :
    ∀ c ∈ (stripChars l).head?, isSpaceChar c = false := by
  intro c hc
  unfold stripChars at hc
  rw [List.head?_reverse] at hc
  rcases dropLeading_getLast isSpaceChar
      ((dropLeading isSpaceChar l).reverse) with h | h
  · rw [h] at hc
    simp at hc
  · rw [h, List.getLast?_reverse] at hc
    exact dropLeading_head isSpaceChar l c hc

theorem stripChars_last (l : List Char) :
    ∀ c ∈ (stripChars l).getLast?, isSpaceChar c = false := by
  intro c hc
  unfold stripChars at hc
  rw [List.getLast?_reverse] at hc
  exact dropLeading_head isSpaceChar _ c hc

theorem stripChars_chain {R : Char → Char → Prop}
    (hsym : ∀ a b, R a b → R b a) (l : List Char)
    (h : List.Chain' R l) : List.Chain' R (stripChars l) :=
  chain_reverse_of hsym _ (dropLeading_chain _ _
    (chain_reverse_of hsym _ (dropLeading_chain _ _ h)))

theorem stripChars_id (l : List Char)
    (h1 : ∀ c ∈ l.head?, isSpaceChar c = false)
    (h2 : ∀ c ∈ l.getLast?, isSpaceChar c = false) :
    stripChars l = l := by
  unfold stripChars
  rw [dropLeading_id _ _ h1]
  rw [dropLeading_id]
  · exact List.reverse_reverse l
  · intro c hc
    rw [List.head?_reverse] at hc
    exact h2 c hc

theorem normalizeChars_normalForm (l : List Char) :
    NormalForm (normalizeChars l) := by
  have hsym : ∀ a b : Char,
      ¬(isSpaceChar a = true ∧ isSpaceChar b = true) →
      ¬(isSpaceChar b = true ∧ isSpaceChar a = true) :=
    fun a b h hc => h ⟨hc.2, hc.1⟩
  unfold normalizeChars collapseRuns
  refine ⟨?_, ?_, stripChars_head _, stripChars_last _⟩
  · intro c hc
    have hcq := mem_stripChars _ c hc
    rcases collapseAux_mem isSpaceChar ' ' false _ c hcq with h | ⟨hco, hcs⟩
    · exact Or.inr h
    · rcases List.mem_map.mp hco with ⟨d, hd, hdc⟩
      by_cases hword : (isWordChar d || isSpaceChar d) = true
      · have hcd : c = d := by
          rw [← hdc]
          unfold scrubChar
          rw [if_pos hword]
        have hwc : isWordChar c = true := by
          rcases Bool.or_eq_true_iff.mp hword with h2 | h2
          · exact hcd ▸ h2
          · rw [← hcd] at h2
            rw [h2] at hcs
            exact absurd hcs (by simp)
        left
        refine ⟨hwc, ?_⟩
        rcases collapseAux_mem (fun c => decide (c = '\n')) ' ' false _
            d hd with h2 | ⟨hdm, _⟩
        · rw [hcd, h2]
          decide
        · rcases List.mem_map.mp hdm with ⟨e, _, hed⟩
          rw [hcd, ← hed]
          exact Char_toLower_idem e
      · right
        rw [← hdc]
        unfold scrubChar
        rw [if_neg hword]
  · exact stripChars_chain hsym _ (collapseAux_chain isSpaceChar ' ' _ false)

theorem normalizeChars_id (l : List Char) (h : NormalForm l) :
    normalizeChars l = l := by
  obtain ⟨hchars, hchain, hhead, hlast⟩ := h
  have s1 : l.map Char.toLower = l := by
    apply map_id_of
    intro c hc
    rcases hchars c hc with ⟨_, hl⟩ | hsp
    · exact hl
    · rw [hsp]
      decide
  have s2 : collapseAux (fun c => decide (c = '\n')) ' ' false l = l := by
    apply collapseAux_id_of_none
    intro c hc
    rcases hchars c hc with ⟨hw, _⟩ | hsp
    · cases h2 : decide (c = '\n')
      · rfl
      · have h3 : c = '\n' := of_decide_eq_true h2
        rw [h3] at hw
        exact absurd hw (by decide)
    · rw [hsp]
      decide
  have s3 : l.map scrubChar = l := by
    apply map_id_of
    intro c hc
    unfold scrubChar
    rcases hchars c hc with ⟨hw, _⟩ | hsp
    · rw [if_pos (by rw [hw]; rfl)]
    · rw [if_pos (by rw [hsp]; decide)]
  have s4 : collapseAux isSpaceChar ' ' false l = l := by
    refine (collapseAux_self isSpaceChar ' ' l ?_ hchain).1
    intro c hc hcs
    rcases hchars c hc with ⟨hw, _⟩ | hsp
    · rw [word_not_space c hw] at hcs
      exact absurd hcs (by simp)
    · exact hsp
  unfold normalizeChars collapseRuns
  rw [s1, s2, s3, s4]
  exact stripChars_id l hhead hlast

theorem normalizeChars_idem (l : List Char) :
    normalizeChars (normalizeChars l) = normalizeChars l :=
  normalizeChars_id _ (normalizeChars_normalForm l)

/-- **C2.** `preprocess_text` is idempotent — applying it to its own
output changes nothing — and both the absent input (`None`, embedded as
`none`) and the empty string map to the empty string.  The embedding is a
total function, so no input raises. -/
theorem C2_preprocess_text_idempotent :
    (∀ t : Option String,
      preprocess_text (some (preprocess_text t)) = preprocess_text t) ∧
    preprocess_text none = "" ∧ preprocess_text (some "") = "" := by
  refine ⟨?_, rfl, rfl⟩
  intro t
  cases t with
  | none => rfl
  | some s =>
      by_cases hs : s = ""
      · subst hs
        rfl
      · have h1 : preprocess_text (some s) =
            String.mk (normalizeChars s.data) := by
          simp [preprocess_text, hs]
        rw [h1]
        by_cases hr : String.mk (normalizeChars s.data) = ""
        · rw [hr]
          rfl
        · have h2 : preprocess_text (some (String.mk (normalizeChars s.data))) =
              String.mk (normalizeChars (normalizeChars s.data)) := by
            simp [preprocess_text, hr]
          rw [h2, normalizeChars_idem]

/-! ## SkillExtractor (`nlp_processor.py`, `extract_skills`)

For each catalog pattern the source wraps it in `\b … \b` word boundaries
and runs `re.finditer` case-insensitively over the lowercased text; each
match is cleaned (characters outside `[\w\s+\-.]` removed, then stripped)
and kept when its length exceeds 1.  A pattern raising `re.error` falls
back to a plain substring test of the raw (lowercased) pattern text
against the lowercased input, appending the pattern with backslashes
removed on success (lines 96–112).  The regular-expression engine is the
oracle `regexFind`, `none` modelling `re.error`; the skill-pattern catalog
is a parameter because it is loaded from an external configuration file
(with the embedded default `SKILL_PATTERNS` below as fallback).  The two
hard-coded vocabularies `ADDITIONAL_SKILLS` and `SOFT_SKILLS` are scanned
by substring containment, and the final loop deduplicates by
`skill.lower().strip()` keeping the first occurrence and dropping entries
whose normalized form has length ≤ 1 (lines 125–134). -/

/-- Python `str.lower()` (ASCII semantics). -/
def lowerStr (s : String) : String := String.mk (s.data.map Char.toLower)

/-- `skill.lower().strip()`: the deduplication key of `extract_skills`. -/
def normSkill (s : String) : String :=
  String.mk (stripChars (s.data.map Char.toLower))

/-- The character class `[\w\s+\-.]` kept by the match cleanup. -/
def keepSkillChar (c : Char) : Bool :=
  isWordChar c || isSpaceChar c || c = '+' || c = '-' || c = '.'

/-- `re.sub(r'[^\w\s\+\-\.]', '', skill_found).strip()`. -/
def cleanSkill (s : String) : String :=
  String.mk (stripChars (s.data.filter keepSkillChar))

/-- Python `pattern.replace('\\\\', '')`: remove every backslash. -/
def stripBackslashes (s : String) : String :=
  String.mk (s.data.filter (fun c => !(c == '\\')))

/-- `leadsWith sub l` holds when `sub` is an initial segment of `l`. -/
def leadsWith : List Char → List Char → Bool
  | [], _ => true
  | _ :: _, [] => false
  | a :: as, b :: bs => a == b && leadsWith as bs

/-- Python substring containment `sub in l` (contiguous occurrence). -/
def occursIn (sub : List Char) : List Char → Bool
  | [] => leadsWith sub []
  | c :: cs => leadsWith sub (c :: cs) || occursIn sub cs

/-- The per-pattern step of the extraction loop (lines 98–112): try the
word-boundary-wrapped regular expression; on success clean each match and
keep the ones longer than one character, on `re.error` (`none`) test the
raw lowercased pattern for substring containment and append the pattern
with escaping backslashes removed. -/
def processPattern (regexFind : String → String → Option (List String))
    (text_lower pattern : String) : List String :=
  match regexFind ("\\b" ++ pattern ++ "\\b") text_lower with
  | some ms =>
      (ms.map cleanSkill).filter (fun sf => decide (sf ≠ "" ∧ 1 < sf.length))
  | none =>
      if occursIn (lowerStr pattern).data text_lower.data then
        [stripBackslashes pattern]
      else []

/-- The embedded default skill-pattern catalog (lines 17–23), used when
`data/skill_patterns.json` is missing or unparsable. -/
def SKILL_PATTERNS : List (String × List String) :=
  [("programming",
    ["python", "java", "javascript", "c\\+\\+", "typescript", "php",
     "ruby"]),
   ("web",
    ["html", "css", "react", "angular", "vue", "node\\.?js", "express",
     "django", "flask"]),
   ("data_science",
    ["machine learning", "deep learning", "pandas", "numpy", "sklearn",
     "tensorflow", "pytorch"]),
   ("database",
    ["sql", "mysql", "postgresql", "mongodb", "redis", "oracle"]),
   ("devops",
    ["docker", "kubernetes", "aws", "azure", "gcp", "jenkins", "ci/cd",
     "terraform"])]

/-- The supplementary technical vocabulary (lines 29–40), scanned by
substring containment. -/
def ADDITIONAL_SKILLS : List String :=
  ["c#", "scala", "golang", "rust", "swift", "kotlin", "r", "matlab",
   "sas", "stata", "git", "github", "gitlab", "bitbucket", "jira",
   "confluence", "slack", "trello", "ansible", "puppet", "chef",
   "vagrant", "nginx", "apache", "elasticsearch", "cassandra",
   "firebase", "dynamodb", "sqlite", "redshift", "snowflake", "tableau",
   "power bi", "excel", "powerpoint", "word", "outlook", "linux",
   "windows", "macos", "ubuntu", "agile", "scrum", "kanban", "waterfall",
   "lean", "api", "rest", "graphql", "soap", "json", "xml", "yaml",
   "oauth", "jwt", "saml", "microservices", "serverless", "big data",
   "data mining", "data analysis", "data visualization", "nlp",
   "computer vision", "neural networks", "reinforcement learning",
   "statistics", "analytics", "reporting", "hadoop", "spark", "kafka",
   "airflow", "etl", "data warehouse", "business intelligence"]

/-- The soft-skill vocabulary (lines 43–50), scanned by substring
containment. -/
def SOFT_SKILLS : List String :=
  ["communication", "teamwork", "leadership", "problem solving",
   "critical thinking", "time management", "adaptability", "creativity",
   "emotional intelligence", "negotiation", "conflict resolution",
   "decision making", "stress management", "flexibility", "patience",
   "empathy", "self-motivation", "reliability", "work ethic",
   "attention to detail", "organization", "interpersonal",
   "presentation", "mentoring", "coaching", "collaboration",
   "project management", "client management", "stakeholder management",
   "customer service"]

/-- The raw matched-skill stream accumulated by `extract_skills` before
deduplication: catalog patterns in order, then the supplementary
vocabulary, then the soft skills. -/
def gatherSkills (regexFind : String → String → Option (List String))
    (catalog : List (String × List String)) (text_lower : String) :
    List String :=
  (catalog.flatMap (fun cp => cp.2.flatMap (processPattern regexFind text_lower)))
    ++ ADDITIONAL_SKILLS.filter
        (fun sk => occursIn (lowerStr sk).data text_lower.data)
    ++ SOFT_SKILLS.filter
        (fun sk => occursIn (lowerStr sk).data text_lower.data)

/-- The matched-skill stream as a function of the optional input text
(empty for `None` and for `""`, which short-circuit before gathering). -/
def gatherOf (regexFind : String → String → Option (List String))
    (catalog : List (String × List String)) : Option String → List String
  | none => []
  | some t => if t = "" then [] else gatherSkills regexFind catalog (lowerStr t)

/-- The deduplication loop of lines 125–134: walk the matched skills,
keep a skill when its normalized form `skill.lower().strip()` is unseen
and longer than one character, recording the normalized form. -/
def dedupGo (seen : List String) : List String → List String
  | [] => []
  | skill :: rest =>
    if normSkill skill ∉ seen ∧ 1 < (normSkill skill).length then
      skill :: dedupGo (normSkill skill :: seen) rest
    else dedupGo seen rest

/-- `unique_skills` of lines 125–134, starting from an empty seen-set. -/
def dedupSkills (matched : List String) : List String := dedupGo [] matched

/-- Embedding of `nlp_processor.extract_skills`. -/
def extract_skills (regexFind : String → String → Option (List String))
    (catalog : List (String × List String)) (text : Option String) :
    List String :=
  match text with
  | none => []
  | some t =>
    if t = "" then []
    else dedupSkills (gatherSkills regexFind catalog (lowerStr t))

theorem extract_skills_eq_dedup_gather
    (regexFind : String → String → Option (List String))
    (catalog : List (String × List String)) (text : Option String) :
    extract_skills regexFind catalog text =
      dedupSkills (gatherOf regexFind catalog text) := by
  cases text with
  | none => rfl
  | some t =>
      by_cases ht : t = "" <;>
        simp [extract_skills, gatherOf, ht, dedupSkills, dedupGo]

theorem dedupGo_filter (n : String) (matched : List String) :
    ∀ seen : List String,
      (dedupGo seen matched).filter (fun m => decide (normSkill m = n)) =
        if n ∉ seen ∧ 1 < n.length then
          (matched.filter (fun m => decide (normSkill m = n))).take 1
        else [] := by
  induction matched with
  | nil =>
      intro seen
      by_cases h : n ∉ seen ∧ 1 < n.length <;> simp [dedupGo, h]
  | cons skill rest ih =>
      intro seen
      unfold dedupGo
      by_cases hkeep : normSkill skill ∉ seen ∧ 1 < (normSkill skill).length
      · rw [if_pos hkeep]
        by_cases heq : normSkill skill = n
        · have h1 : List.filter (fun m => decide (normSkill m = n))
              (skill :: dedupGo (normSkill skill :: seen) rest) =
              skill :: List.filter (fun m => decide (normSkill m = n))
                (dedupGo (normSkill skill :: seen) rest) := by
            simp [List.filter_cons, heq]
          have h2 : List.filter (fun m => decide (normSkill m = n))
              (dedupGo (normSkill skill :: seen) rest) = [] := by
            rw [ih]
            rw [if_neg]
            intro hc
            exact hc.1 (List.mem_cons.mpr (Or.inl heq.symm))
          have h3 : List.filter (fun m => decide (normSkill m = n))
              (skill :: rest) =
              skill :: List.filter (fun m => decide (normSkill m = n)) rest := by
            simp [List.filter_cons, heq]
          rw [h1, h2, h3]
          rw [if_pos (heq ▸ hkeep)]
          rfl
        · have h1 : List.filter (fun m => decide (normSkill m = n))
              (skill :: dedupGo (normSkill skill :: seen) rest) =
              List.filter (fun m => decide (normSkill m = n))
                (dedupGo (normSkill skill :: seen) rest) := by
            simp [List.filter_cons, heq]
          have h3 : List.filter (fun m => decide (normSkill m = n))
              (skill :: rest) =
              List.filter (fun m => decide (normSkill m = n)) rest := by
            simp [List.filter_cons, heq]
          rw [h1, ih, h3]
          by_cases hn : n ∉ seen ∧ 1 < n.length
          · have hc2 : n ∉ normSkill skill :: seen ∧ 1 < n.length := by
              refine ⟨?_, hn.2⟩
              intro hmem
              rcases List.mem_cons.mp hmem with h | h
              · exact heq h.symm
              · exact hn.1 h
            rw [if_pos hc2, if_pos hn]
          · have hc2 : ¬(n ∉ normSkill skill :: seen ∧ 1 < n.length) := by
              intro hc
              exact hn ⟨fun hmem => hc.1 (List.mem_cons.mpr (Or.inr hmem)), hc.2⟩
            rw [if_neg hc2, if_neg hn]
      · rw [if_neg hkeep]
        rw [ih]
        by_cases heq : normSkill skill = n
        · have hcond : ¬(n ∉ seen ∧ 1 < n.length) := by
            intro hc
            apply hkeep
            constructor
            · rw [heq]
              exact hc.1
            · rw [heq]
              exact hc.2
          rw [if_neg hcond, if_neg hcond]
        · have h3 : List.filter (fun m => decide (normSkill m = n))
              (skill :: rest) =
              List.filter (fun m => decide (normSkill m = n)) rest := by
            simp [List.filter_cons, heq]
          rw [h3]

theorem dedupGo_mem_norm (matched : List String) :
    ∀ seen x, x ∈ dedupGo seen matched →
      normSkill x ∉ seen ∧ 1 < (normSkill x).length := by
  induction matched with
  | nil =>
      intro seen x hx
      simp [dedupGo] at hx
  | cons skill rest ih =>
      intro seen x hx
      unfold dedupGo at hx
      by_cases hkeep : normSkill skill ∉ seen ∧ 1 < (normSkill skill).length
      · rw [if_pos hkeep] at hx
        rcases List.mem_cons.mp hx with h | h
        · subst h
          exact hkeep
        · obtain ⟨h1, h2⟩ := ih _ x h
          exact ⟨fun h3 => h1 (List.mem_cons_of_mem (normSkill skill) h3), h2⟩
      · rw [if_neg hkeep] at hx
        exact ih seen x hx

theorem dedupGo_pairwise (matched : List String) :
    ∀ seen, (dedupGo seen matched).Pairwise
      (fun a b => normSkill a ≠ normSkill b) := by
  induction matched with
  | nil =>
      intro seen
      simp [dedupGo]
  | cons skill rest ih =>
      intro seen
      unfold dedupGo
      by_cases hkeep : normSkill skill ∉ seen ∧ 1 < (normSkill skill).length
      · rw [if_pos hkeep]
        rw [List.pairwise_cons]
        refine ⟨?_, ih _⟩
        intro y hy heq
        obtain ⟨h1, _⟩ := dedupGo_mem_norm rest _ y hy
        exact h1 (List.mem_cons.mpr (Or.inl heq.symm))
      · rw [if_neg hkeep]
        exact ih seen

theorem normSkill_eq_of_lowerStr_eq (a b : String)
    (h : lowerStr a = lowerStr b) : normSkill a = normSkill b := by
  unfold lowerStr at h
  unfold normSkill
  have h2 : a.data.map Char.toLower = b.data.map Char.toLower := by
    have h3 := congrArg String.data h
    simpa using h3
  rw [h2]

theorem stripChars_length_le (l : List Char) :
    (stripChars l).length ≤ l.length := by
  have hdl : ∀ (p : Char → Bool) (m : List Char),
      (dropLeading p m).length ≤ m.length := by
    intro p m
    induction m with
    | nil => simp [dropLeading]
    | cons c cs ih =>
        unfold dropLeading
        by_cases hpc : p c = true
        · rw [if_pos hpc]
          exact le_trans ih (Nat.le_succ _)
        · rw [if_neg hpc]
  unfold stripChars
  rw [List.length_reverse]
  calc (dropLeading isSpaceChar ((dropLeading isSpaceChar l).reverse)).length
      ≤ ((dropLeading isSpaceChar l).reverse).length := hdl _ _
    _ = (dropLeading isSpaceChar l).length := List.length_reverse _
    _ ≤ l.length := hdl _ _

theorem normSkill_length_le (s : String) :
    (normSkill s).length ≤ s.length := by
  unfold normSkill
  show (stripChars (s.data.map Char.toLower)).length ≤ s.data.length
  calc (stripChars (s.data.map Char.toLower)).length
      ≤ (s.data.map Char.toLower).length := stripChars_length_le _
    _ = s.data.length := List.length_map _ _

/-- **C5.** For every input (and every regular-expression oracle and
pattern catalog), the skill list returned by `extract_skills` contains no
two entries equal under case-insensitive comparison; for every
deduplication key the output retains exactly the first gathered
occurrence (first-seen original casing); no entry is empty or a single
character; and extraction is a pure function, so extracting twice from
the same text yields identical results. -/
theorem C5_extract_skills_invariants
    (regexFind : String → String → Option (List String))
    (catalog : List (String × List String)) (text : Option String) :
    (extract_skills regexFind catalog text).Pairwise
      (fun a b => lowerStr a ≠ lowerStr b) ∧
    (∀ x ∈ extract_skills regexFind catalog text, 1 < x.length ∧ x ≠ "") ∧
    (∀ n : String,
      (extract_skills regexFind catalog text).filter
          (fun m => decide (normSkill m = n)) =
        if 1 < n.length then
          ((gatherOf regexFind catalog text).filter
            (fun m => decide (normSkill m = n))).take 1
        else []) ∧
    extract_skills regexFind catalog text =
      extract_skills regexFind catalog text := by
  rw [extract_skills_eq_dedup_gather]
  refine ⟨?_, ?_, ?_, rfl⟩
  · have hp := dedupGo_pairwise (gatherOf regexFind catalog text) []
    refine List.Pairwise.imp ?_ hp
    intro a b hab hl
    exact hab (normSkill_eq_of_lowerStr_eq a b hl)
  · intro x hx
    obtain ⟨_, hlen⟩ :=
      dedupGo_mem_norm (gatherOf regexFind catalog text) [] x hx
    have hxlen : 1 < x.length := lt_of_lt_of_le hlen (normSkill_length_le x)
    refine ⟨hxlen, ?_⟩
    intro hx0
    rw [hx0] at hxlen
    simp at hxlen
  · intro n
    show (dedupGo [] (gatherOf regexFind catalog text)).filter
        (fun m => decide (normSkill m = n)) = _
    rw [dedupGo_filter]
    by_cases hn : 1 < n.length
    · rw [if_pos ⟨by simp, hn⟩, if_pos hn]
    · rw [if_neg (fun hc => hn hc.2), if_neg hn]

/-- The fallback behavior as the specification sentence reads: plain
case-insensitive substring containment of the pattern text *with
escaping markers removed*.  The source instead tests containment of the
raw pattern text, backslashes included (line 111), and only removes the
backslashes from the appended skill (line 112). -/
def fallback_spec (text_lower pattern : String) : List String :=
  if occursIn (lowerStr (stripBackslashes pattern)).data text_lower.data then
    [stripBackslashes pattern]
  else []

theorem gatherSkills_insert
    (regexFind : String → String → Option (List String))
    (pre post : List (String × List String)) (cat : String)
    (ps1 ps2 : List String) (p : String) (tl : String) (x : String)
    (hx : x ∈ gatherSkills regexFind (pre ++ (cat, ps1 ++ ps2) :: post) tl) :
    x ∈ gatherSkills regexFind (pre ++ (cat, ps1 ++ p :: ps2) :: post) tl := by
  unfold gatherSkills at hx ⊢
  rcases List.mem_append.mp hx with hx12 | hx3
  case inr => exact List.mem_append.mpr (Or.inr hx3)
  rcases List.mem_append.mp hx12 with hx1 | hx2
  case inr =>
    exact List.mem_append.mpr (Or.inl (List.mem_append.mpr (Or.inr hx2)))
  · refine List.mem_append.mpr (Or.inl (List.mem_append.mpr (Or.inl ?_)))
    rcases List.mem_flatMap.mp hx1 with ⟨cp, hcp, hxcp⟩
    rcases List.mem_append.mp hcp with hpre | hrest
    · exact List.mem_flatMap.mpr
        ⟨cp, List.mem_append.mpr (Or.inl hpre), hxcp⟩
    · rcases List.mem_cons.mp hrest with hmid | hpost
      · have hxcp2 : x ∈ (ps1 ++ ps2).flatMap
            (processPattern regexFind tl) := by
          rw [hmid] at hxcp
          exact hxcp
        rcases List.mem_flatMap.mp hxcp2 with ⟨q, hq, hxq⟩
        have hq2 : q ∈ ps1 ++ p :: ps2 := by
          rcases List.mem_append.mp hq with h | h
          · exact List.mem_append.mpr (Or.inl h)
          · exact List.mem_append.mpr (Or.inr (List.mem_cons_of_mem p h))
        refine List.mem_flatMap.mpr ⟨(cat, ps1 ++ p :: ps2), ?_, ?_⟩
        · exact List.mem_append.mpr (Or.inr (List.mem_cons_self _ _))
        · exact List.mem_flatMap.mpr ⟨q, hq2, hxq⟩
      · exact List.mem_flatMap.mpr
          ⟨cp, List.mem_append.mpr (Or.inr (List.mem_cons_of_mem _ hpost)),
            hxcp⟩

theorem extract_skills_no_suppression
    (regexFind : String → String → Option (List String))
    (pre post : List (String × List String)) (cat : String)
    (ps1 ps2 : List String) (p : String) (text : Option String)
    (x : String)
    (hx : x ∈ extract_skills regexFind
      (pre ++ (cat, ps1 ++ ps2) :: post) text) :
    ∃ y ∈ extract_skills regexFind
      (pre ++ (cat, ps1 ++ p :: ps2) :: post) text,
      normSkill y = normSkill x := by
  rw [extract_skills_eq_dedup_gather] at hx
  obtain ⟨_, hlen⟩ := dedupGo_mem_norm _ [] x hx
  have hxf : x ∈ (dedupGo []
      (gatherOf regexFind (pre ++ (cat, ps1 ++ ps2) :: post) text)).filter
      (fun m => decide (normSkill m = normSkill x)) :=
    List.mem_filter.mpr ⟨hx, by simp⟩
  rw [dedupGo_filter, if_pos ⟨by simp, hlen⟩] at hxf
  have hne : (gatherOf regexFind (pre ++ (cat, ps1 ++ ps2) :: post)
      text).filter (fun m => decide (normSkill m = normSkill x)) ≠ [] := by
    intro h0
    rw [h0] at hxf
    simp at hxf
  obtain ⟨z, hz⟩ := List.exists_mem_of_ne_nil _ hne
  obtain ⟨hz1, hz2⟩ := List.mem_filter.mp hz
  have hz3 : z ∈ gatherOf regexFind
      (pre ++ (cat, ps1 ++ p :: ps2) :: post) text := by
    cases text with
    | none => simp [gatherOf] at hz1
    | some t =>
        by_cases ht : t = ""
        · simp [gatherOf, ht] at hz1
        · simp only [gatherOf, ht, if_neg ht] at hz1 ⊢
          exact gatherSkills_insert regexFind pre post cat ps1 ps2 p
            (lowerStr t) z hz1
  have hzf : z ∈ (gatherOf regexFind
      (pre ++ (cat, ps1 ++ p :: ps2) :: post) text).filter
      (fun m => decide (normSkill m = normSkill x)) :=
    List.mem_filter.mpr ⟨hz3, hz2⟩
  have hne2 : (gatherOf regexFind (pre ++ (cat, ps1 ++ p :: ps2) :: post)
      text).filter (fun m => decide (normSkill m = normSkill x)) ≠ [] := by
    intro h0
    rw [h0] at hzf
    simp at hzf
  obtain ⟨h0, t0, hht⟩ := List.exists_cons_of_ne_nil hne2
  have hfl : (dedupGo []
      (gatherOf regexFind (pre ++ (cat, ps1 ++ p :: ps2) :: post)
        text)).filter (fun m => decide (normSkill m = normSkill x)) =
      [h0] := by
    rw [dedupGo_filter, if_pos ⟨by simp, hlen⟩, hht]
    rfl
  have hmem : h0 ∈ (dedupGo []
      (gatherOf regexFind (pre ++ (cat, ps1 ++ p :: ps2) :: post)
        text)).filter (fun m => decide (normSkill m = normSkill x)) := by
    rw [hfl]
    exact List.mem_cons_self _ _
  obtain ⟨hm1, hm2⟩ := List.mem_filter.mp hmem
  refine ⟨h0, ?_, of_decide_eq_true hm2⟩
  rw [extract_skills_eq_dedup_gather]
  exact hm1

/-- **C6 (amended).** When a catalog pattern fails to compile or execute
(the `re` oracle returns `none`), `extract_skills` does not raise: the
per-pattern step falls back to a plain case-insensitive substring test of
the *raw* pattern text (escaping backslashes still included) and, on
success, appends the pattern *with the escaping markers removed*; and the
malformed pattern never suppresses skills matched by other patterns —
every deduplication class extracted without the malformed pattern is
still extracted with it present. -/
theorem C6_malformed_pattern_fallback
    (regexFind : String → String → Option (List String))
    (tl pattern : String)
    (pre post : List (String × List String)) (cat : String)
    (ps1 ps2 : List String) (text : Option String) (x : String)
    (hfail : regexFind ("\\b" ++ pattern ++ "\\b") tl = none)
    (hx : x ∈ extract_skills regexFind
      (pre ++ (cat, ps1 ++ ps2) :: post) text) :
    processPattern regexFind tl pattern =
      (if occursIn (lowerStr pattern).data tl.data then
        [stripBackslashes pattern]
      else []) ∧
    ∃ y ∈ extract_skills regexFind
      (pre ++ (cat, ps1 ++ pattern :: ps2) :: post) text,
      normSkill y = normSkill x := by
  constructor
  · unfold processPattern
    rw [hfail]
  · exact extract_skills_no_suppression regexFind pre post cat ps1 ps2
      pattern text x hx

/-- Counterexample to C6 as stated: for the malformed pattern `c\+\+(`
(an unbalanced parenthesis, so the oracle fails) over a text containing
`c++(`, the source's fallback extracts nothing, because it tests
containment of the raw pattern text with its backslashes, while the
claimed fallback — containment of the pattern with escaping markers
removed — would extract `c++(`. -/
theorem C6_fallback_counterexample :
    processPattern (fun _ _ => none) "uses c++( daily" "c\\+\\+(" = [] ∧
    fallback_spec "uses c++( daily" "c\\+\\+(" = ["c++("] := by
  constructor
  · decide
  · decide

/-- Witness for C6 (amended) at a fully concrete input: the pattern
`c\+\+(` fails while `python` is matched by another pattern of the same
category and survives the malformed pattern's insertion. -/
theorem C6_malformed_pattern_fallback_witness :
    (processPattern
        (fun pat _ => if pat = "\\bpython\\b" then some ["python"] else none)
        "uses c++( daily" "c\\+\\+(" =
      (if occursIn (lowerStr "c\\+\\+(").data "uses c++( daily".data then
        [stripBackslashes "c\\+\\+("]
      else [])) ∧
    ∃ y ∈ extract_skills
        (fun pat _ => if pat = "\\bpython\\b" then some ["python"] else none)
        ([] ++ ("programming", [] ++ "c\\+\\+(" :: ["python"]) :: [])
        (some "python"),
      normSkill y = normSkill "python" :=
  C6_malformed_pattern_fallback
    (fun pat _ => if pat = "\\bpython\\b" then some ["python"] else none)
    "uses c++( daily" "c\\+\\+(" [] [] "programming" [] ["python"]
    (some "python") "python" (by decide) (by decide)

/-! ## KeywordAggregator (`utils.py`, `get_top_keywords`)

The source walks the batch in order and, for each entry of a candidate's
skill list that also appears in `job_skills`, increments
`skill_counter[skill]`; `Counter` keys are in first-encountered order and
`most_common(top_n)` sorts by count descending, keeping equal-count keys
in that first-encountered order, truncated to `top_n`.  The returned
DataFrame is embedded as its list of (keyword, frequency) rows. -/

/-- First-occurrence key enumeration of the counted stream (the
insertion order of `Counter` keys). -/
def keysGo (seen : List String) : List String → List String
  | [] => []
  | x :: xs =>
    if x ∈ seen then keysGo seen xs else x :: keysGo (x :: seen) xs

/-- The `Counter` contents after the counting loop of lines 320–326:
keys in first-encountered order, each with its number of occurrences in
the job-filtered skill stream. -/
def counterItems (stream : List String) : List (String × Nat) :=
  (keysGo [] stream).map
    (fun k => (k, (stream.filter (fun s => decide (s = k))).length))

/-- Embedding of `utils.get_top_keywords` over the `skills` lists of the
candidate records. -/
def get_top_keywords (resumes_skills : List (List String))
    (job_skills : List String) (top_n : Nat) : List (String × Nat) :=
  (sortDescBy (fun kv => kv.2) (counterItems
    (resumes_skills.flatten.filter
      (fun s => decide (s ∈ job_skills))))).take top_n

theorem keysGo_mem (stream : List String) :
    ∀ seen k, k ∈ keysGo seen stream → k ∈ stream := by
  induction stream with
  | nil =>
      intro seen k hk
      simp [keysGo] at hk
  | cons x xs ih =>
      intro seen k hk
      unfold keysGo at hk
      by_cases hx : x ∈ seen
      · rw [if_pos hx] at hk
        exact List.mem_cons_of_mem x (ih seen k hk)
      · rw [if_neg hx] at hk
        rcases List.mem_cons.mp hk with h | h
        · exact h ▸ List.mem_cons_self x xs
        · exact List.mem_cons_of_mem x (ih _ k h)

theorem stream_count_eq (resumes_skills : List (List String))
    (job_skills : List String) (k : String) :
    ((resumes_skills.flatten.filter
        (fun s => decide (s ∈ job_skills))).filter
        (fun s => decide (s = k))).length =
      (resumes_skills.map (fun sk =>
        (sk.filter (fun s => decide (s = k ∧ s ∈ job_skills))).length)).sum := by
  induction resumes_skills with
  | nil => rfl
  | cons sk rest ih =>
      simp only [List.flatten_cons, List.filter_append, List.length_append,
        List.map_cons, List.sum_cons, ih]
      congr 1
      rw [List.filter_filter]
      apply congrArg List.length
      apply List.filter_congr
      intro s _
      by_cases h1 : s = k <;> by_cases h2 : s ∈ job_skills <;>
        simp [h1, h2]

/-- **C8.** `get_top_keywords` counts, for every keyword it reports, one
occurrence per entry of each candidate's skill list that also appears in
the job skills, summed across the batch; the report is sorted by
descending count with ties kept in first-encountered key order (the
pre-truncation sorted list preserves, for each count value, the
first-encounter enumeration of the `Counter`), truncated to the requested
top-N; and on the concrete batch `{python, sql}`, `{python, java}` with
job skills `{python, sql}` it reports `python → 2`, `sql → 1` with `java`
excluded. -/
theorem C8_get_top_keywords
    (resumes_skills : List (List String)) (job_skills : List String)
    (top_n : Nat) :
    (∀ kv ∈ get_top_keywords resumes_skills job_skills top_n,
      kv.1 ∈ job_skills ∧
      kv.2 = (resumes_skills.map (fun sk =>
        (sk.filter (fun s =>
          decide (s = kv.1 ∧ s ∈ job_skills))).length)).sum) ∧
    (get_top_keywords resumes_skills job_skills top_n).Pairwise
      (fun a b => b.2 ≤ a.2) ∧
    (∀ c : Nat,
      (sortDescBy (fun kv => kv.2) (counterItems
        (resumes_skills.flatten.filter
          (fun s => decide (s ∈ job_skills))))).filter
            (fun kv => decide (kv.2 = c)) =
        (counterItems (resumes_skills.flatten.filter
          (fun s => decide (s ∈ job_skills)))).filter
            (fun kv => decide (kv.2 = c))) ∧
    (get_top_keywords resumes_skills job_skills top_n).length ≤ top_n ∧
    get_top_keywords [["python", "sql"], ["python", "java"]]
      ["python", "sql"] 10 = [("python", 2), ("sql", 1)] := by
  refine ⟨?_, ?_, ?_, ?_, ?_⟩
  · intro kv hkv
    have hkv2 : kv ∈ sortDescBy (fun kv => kv.2) (counterItems
        (resumes_skills.flatten.filter
          (fun s => decide (s ∈ job_skills)))) :=
      List.take_subset _ _ hkv
    have hkv3 : kv ∈ counterItems (resumes_skills.flatten.filter
        (fun s => decide (s ∈ job_skills))) :=
      (sortDescBy_perm _ _).mem_iff.mp hkv2
    rcases List.mem_map.mp hkv3 with ⟨k, hk, hkkv⟩
    have hks : k ∈ resumes_skills.flatten.filter
        (fun s => decide (s ∈ job_skills)) :=
      keysGo_mem _ [] k hk
    have hkj : k ∈ job_skills :=
      of_decide_eq_true (List.mem_filter.mp hks).2
    constructor
    · rw [← hkkv]
      exact hkj
    · rw [← hkkv]
      show _ = (resumes_skills.map (fun sk =>
        (sk.filter (fun s => decide (s = k ∧ s ∈ job_skills))).length)).sum
      exact stream_count_eq resumes_skills job_skills k
  · exact List.Pairwise.sublist (List.take_sublist _ _)
      (sortDescBy_sorted (fun kv : String × Nat => kv.2) _)
  · intro c
    exact sortDescBy_filter_key (fun kv : String × Nat => kv.2) _ c
  · exact List.length_take_le _ _
  · decide

/-! ## EntityExtractor (`nlp_processor.py`, `extract_entities`) and
RequirementClassifier (`nlp_processor.py`, `extract_job_requirements`)

`extract_entities` guards `if not text: return []`, then runs the PERSON
heuristic over `text.split('\n')[:3]` (lines 150–161) followed by the
regex-based EMAIL/PHONE/URL/LINKEDIN/GITHUB/EDUCATION/ORGANIZATION/
EXPERIENCE extractions, and deduplicates by case-insensitive
`(text, label)` key keeping first occurrences (lines 224–231).  The
regex-based sections are an oracle parameter `otherEntities`; the PERSON
scan and the deduplication are embedded concretely.
`extract_job_requirements` guards `if not text: return {}` (lines
245–246); its body (lines 248–327) is the oracle `body`, and the returned
dictionary is embedded as an association list — the guard returns the
empty dictionary with no keys at all, not a requirements record with
empty lists. -/

/-- Splitter: cut the character list at every character satisfying `p`,
keeping empty pieces — Python `str.split(sep)` semantics. -/
def splitPAux (p : Char → Bool) : List Char → List Char → List (List Char)
  | acc, [] => [acc.reverse]
  | acc, c :: cs =>
    if p c then acc.reverse :: splitPAux p [] cs
    else splitPAux p (c :: acc) cs

/-- Split a string at every separator character satisfying `p`. -/
def splitP (p : Char → Bool) (s : String) : List String :=
  (splitPAux p [] s.data).map String.mk

/-- Python `text.split('\n')`: empty pieces kept. -/
def splitLines (s : String) : List String :=
  splitP (fun c => decide (c = '\n')) s

/-- Python `line.split()` with no argument: split on whitespace, empty
pieces dropped. -/
def pySplitWs (s : String) : List String :=
  (splitP isSpaceChar s).filter (fun t => decide (t ≠ ""))

/-- Python `str.strip()` on a string. -/
def pyStrip (s : String) : String := String.mk (stripChars s.data)

/-- The qualification test applied to a stripped candidate line of the
PERSON scan: non-empty, at most 4 whitespace-separated tokens, no digit,
and no header keyword (`resume`, `cv`, `curriculum`, `profile`,
`summary`) as a substring of its lowercasing.  A line failing either the
token/digit test (line 157) or the header-keyword test (line 159) is
skipped and scanning continues; only a fully qualifying line is emitted
and stops the scan. -/
def qualifiesPerson (line : String) : Bool :=
  decide (line ≠ "") && decide ((pySplitWs line).length ≤ 4) &&
    !(line.data.any Char.isDigit) &&
    !(["resume", "cv", "curriculum", "profile", "summary"].any
      (fun k => occursIn k.data (lowerStr line).data))

/-- The `for` loop of lines 155–161: strip each candidate line, emit the
first qualifying one as a PERSON entity and stop. -/
def personScan : List String → List (String × String)
  | [] => []
  | l :: ls =>
    if qualifiesPerson (pyStrip l) then [(pyStrip l, "PERSON")]
    else personScan ls

/-- The PERSON part of `extract_entities`: scan `text.split('\n')[:3]`. -/
def extract_person (text : String) : List (String × String) :=
  personScan ((splitLines text).take 3)

/-- The PERSON scan as a first-match search over the stripped first
three lines (empty lines counted toward the limit, skipped by the
qualification test). -/
def person_spec (text : String) : Option String :=
  (((splitLines text).take 3).map pyStrip).find? qualifiesPerson

/-- The PERSON scan as the claim sentence reads: a first-match search
over the first three *non-empty* (stripped) lines. -/
def person_claim (text : String) : Option String :=
  ((((splitLines text).map pyStrip).filter
    (fun l => decide (l ≠ ""))).take 3).find? qualifiesPerson

/-- Case-insensitive `(text, label)` dedup key of lines 224–231. -/
def entityKey (e : String × String) : String × String :=
  (lowerStr e.1, e.2)

/-- The entity deduplication loop: keep first occurrences by key. -/
def dedupEntitiesGo (seen : List (String × String)) :
    List (String × String) → List (String × String)
  | [] => []
  | e :: rest =>
    if entityKey e ∈ seen then dedupEntitiesGo seen rest
    else e :: dedupEntitiesGo (entityKey e :: seen) rest

/-- Embedding of `nlp_processor.extract_entities`; the regex-driven
sections after the PERSON scan are the oracle `otherEntities`. -/
def extract_entities (otherEntities : String → List (String × String))
    (text : Option String) : List (String × String) :=
  match text with
  | none => []
  | some t =>
    if t = "" then []
    else dedupEntitiesGo [] (extract_person t ++ otherEntities t)

/-- Embedding of `nlp_processor.extract_job_requirements`: the empty
guard of lines 245–246 returns the empty dictionary (no keys); the body
building the categorized dictionary for non-empty text (lines 248–327)
is the oracle `body`. -/
def extract_job_requirements
    (body : String → List (String × List String)) (text : Option String) :
    List (String × List String) :=
  match text with
  | none => []
  | some t => if t = "" then [] else body t

theorem personScan_eq_find (ls : List String) :
    personScan ls =
      match (ls.map pyStrip).find? qualifiesPerson with
      | some p => [(p, "PERSON")]
      | none => [] := by
  induction ls with
  | nil => rfl
  | cons l rest ih =>
      unfold personScan
      simp only [List.map_cons, List.find?_cons]
      by_cases hq : qualifiesPerson (pyStrip l) = true
      · rw [if_pos hq, hq]
      · have hq2 : qualifiesPerson (pyStrip l) = false := by
          cases h : qualifiesPerson (pyStrip l)
          · rfl
          · exact absurd h hq
        rw [if_neg hq, hq2]
        exact ih

/-- **C9 (amended).** The PERSON extraction of `extract_entities` scans
at most the first 3 *lines* of the text (empty lines count toward the
limit and are merely skipped by the qualification test, so a name on the
fourth raw line is never found); a stripped line qualifies exactly when
it is non-empty, has at most 4 whitespace-separated tokens, contains no
digit and contains none of the header keywords `resume`, `cv`,
`curriculum`, `profile`, `summary`; the first qualifying line is emitted
as the PERSON entity and scanning stops. -/
theorem C9_person_scan_first_three_lines (text : String) :
    extract_person text =
      match person_spec text with
      | some p => [(p, "PERSON")]
      | none => [] :=
  personScan_eq_find ((splitLines text).take 3)

/-- Counterexample to C9 as stated: with three empty lines before the
name, the source scans only the three empty lines and emits no PERSON,
while a scan of the first 3 *non-empty* lines (as claimed) would emit
`John Smith`. -/
theorem C9_person_scan_counterexample :
    extract_person "\n\n\nJohn Smith" = [] ∧
    person_claim "\n\n\nJohn Smith" = some "John Smith" := by
  constructor
  · decide
  · decide

/-- **C10.** For the absent input (`None`) and the empty string:
`extract_skills` returns the empty list, `extract_entities` returns the
empty list, and `extract_job_requirements` returns the empty dictionary,
which contains none of the categorized requirement keys (it is not a
requirements record with empty value lists). -/
theorem C10_empty_input_behavior
    (regexFind : String → String → Option (List String))
    (catalog : List (String × List String))
    (otherEntities : String → List (String × String))
    (body : String → List (String × List String)) :
    extract_skills regexFind catalog none = [] ∧
    extract_skills regexFind catalog (some "") = [] ∧
    extract_entities otherEntities none = [] ∧
    extract_entities otherEntities (some "") = [] ∧
    extract_job_requirements body none = [] ∧
    extract_job_requirements body (some "") = [] ∧
    (∀ k : String,
      k ∉ (extract_job_requirements body none).map Prod.fst) ∧
    (∀ k : String,
      k ∉ (extract_job_requirements body (some "")).map Prod.fst) := by
  refine ⟨rfl, rfl, rfl, rfl, rfl, rfl, ?_, ?_⟩ <;>
    intro k <;> simp [extract_job_requirements]
